import Mathlib

/-!
Shallow embedding of the `mathparser` arithmetic-expression evaluator
(`src/parse_math/{token,parser,ast,errors}.rs`).

Modelling conventions:

* Rust `f64` values are idealized as exact rationals `ℚ` extended with
  `posInf`, `negInf` and `nan` (`FVal` below).  All arithmetic on the
  finite (`num`) values is exact, which agrees with IEEE 754 `f64` on
  every value the program's scenarios exercise (small integers and small
  decimal fractions).  Arithmetic is implemented with `mkRat` and raw
  `Int`/`Nat` operations so that every definition evaluates inside the
  kernel (`decide`).
* The tokenizer's character stream is the input's characters with ASCII
  whitespace removed, mirroring the `filter(...).peekable()` iterator in
  `Tokenizer::new`.
* `number.parse::<f64>().unwrap()` panics in Rust when a numeral chunk
  holds more than one decimal point; a panic is modelled as `none`
  (`TokenizeResult.panicked` at the stream level).
* Recursive functions take an explicit fuel argument (structural
  recursion on `Nat`, so they evaluate in the kernel); `none` means the
  fuel ran out.  A separate theorem shows that fuel linear in the input
  length always suffices, so the wrappers `Parser.parse` and
  `Parser.evaluate` instantiated with that fuel model the Rust functions.
-/

namespace MathParser

/-- Precedence levels, in the declaration order of the Rust `enum`
`OperationPrecedence`; `derive(PartialOrd)` orders them
`Default < AddSub < MulDiv < Power`. -/
inductive OperationPrecedence where
  | default
  | addSub
  | mulDiv
  | power
deriving DecidableEq

/-- Numeric rank realising the derived `PartialOrd` order. -/
def OperationPrecedence.toNat : OperationPrecedence → Nat
  | .default => 0
  | .addSub => 1
  | .mulDiv => 2
  | .power => 3

/-- Strict comparison of precedence levels (`<` of the derived
`PartialOrd`). -/
def OperationPrecedence.lt (a b : OperationPrecedence) : Bool :=
  a.toNat < b.toNat

/-- Lexical tokens of `token.rs`; the `f64` payload of `Number` is
idealized as `ℚ`. -/
inductive Token where
  | number (value : ℚ)
  | plus
  | minus
  | asterisk
  | slash
  | caret
  | leftParenthesis
  | rightParenthesis
  | eof
deriving DecidableEq

/-- Translation of `Token::operation_precedence`. -/
def Token.operation_precedence : Token → OperationPrecedence
  | .plus => .addSub
  | .minus => .addSub
  | .asterisk => .mulDiv
  | .slash => .mulDiv
  | .leftParenthesis => .mulDiv
  | .caret => .power
  | _ => .default

/-- Rendering of the derived `Debug` formatting used in the
`format!("{:?}", token)` error messages (only the constructor name is
ever observable in the claims; the numeric payload rendering of `f64`
is approximated by the rational's rendering). -/
def Token.debugString : Token → String
  | .number q => "Number(" ++ toString q ++ ")"
  | .plus => "Plus"
  | .minus => "Minus"
  | .asterisk => "Asterisk"
  | .slash => "Slash"
  | .caret => "Caret"
  | .leftParenthesis => "LeftParenthesis"
  | .rightParenthesis => "RightParenthesis"
  | .eof => "EOF"

/-- Translation of `errors.rs`: the whole error taxonomy of the core. -/
inductive ParseError where
  | unableToParse (msg : String)
  | parenthesisNotBalanced
  | invalidOperator (msg : String)
  | invalidNumber (msg : String)
deriving DecidableEq

/-- Idealized `f64` value: an exact rational, one of the two infinities,
or not-a-number.  Signed zero is not modelled (ℚ has a single zero). -/
inductive FVal where
  | num (q : ℚ)
  | posInf
  | negInf
  | nan
deriving DecidableEq

/-- Exact rational addition via `mkRat` (kernel-computable). -/
def qAdd (a b : ℚ) : ℚ :=
  mkRat (a.num * (b.den : Int) + b.num * (a.den : Int)) (a.den * b.den)

/-- Exact rational subtraction via `mkRat` (kernel-computable). -/
def qSub (a b : ℚ) : ℚ :=
  mkRat (a.num * (b.den : Int) - b.num * (a.den : Int)) (a.den * b.den)

/-- Exact rational multiplication via `mkRat` (kernel-computable). -/
def qMul (a b : ℚ) : ℚ :=
  mkRat (a.num * b.num) (a.den * b.den)

/-- Exact rational division via `mkRat` (kernel-computable); only used
with a nonzero divisor. -/
def qDiv (a b : ℚ) : ℚ :=
  if b.num < 0 then
    mkRat (-(a.num * (b.den : Int))) (a.den * b.num.natAbs)
  else
    mkRat (a.num * (b.den : Int)) (a.den * b.num.natAbs)

/-- Exact rational integer power via `mkRat` (kernel-computable); the
negative-exponent case is only used with a nonzero base. -/
def qPow (a : ℚ) (n : Int) : ℚ :=
  if 0 ≤ n then
    mkRat (a.num ^ n.toNat) (a.den ^ n.toNat)
  else
    let m := (-n).toNat
    if a.num < 0 then
      mkRat (-((a.den : Int) ^ m)) (a.num.natAbs ^ m)
    else
      mkRat ((a.den : Int) ^ m) (a.num.natAbs ^ m)

/-- IEEE negation on the idealized domain. -/
def FVal.neg : FVal → FVal
  | .num q => .num (mkRat (-q.num) q.den)
  | .posInf => .negInf
  | .negInf => .posInf
  | .nan => .nan

/-- IEEE addition on the idealized domain. -/
def FVal.add : FVal → FVal → FVal
  | .nan, _ => .nan
  | _, .nan => .nan
  | .num a, .num b => .num (qAdd a b)
  | .num _, .posInf => .posInf
  | .num _, .negInf => .negInf
  | .posInf, .num _ => .posInf
  | .negInf, .num _ => .negInf
  | .posInf, .posInf => .posInf
  | .negInf, .negInf => .negInf
  | .posInf, .negInf => .nan
  | .negInf, .posInf => .nan

/-- IEEE subtraction on the idealized domain. -/
def FVal.sub : FVal → FVal → FVal
  | .nan, _ => .nan
  | _, .nan => .nan
  | .num a, .num b => .num (qSub a b)
  | .num _, .posInf => .negInf
  | .num _, .negInf => .posInf
  | .posInf, .num _ => .posInf
  | .negInf, .num _ => .negInf
  | .posInf, .negInf => .posInf
  | .negInf, .posInf => .negInf
  | .posInf, .posInf => .nan
  | .negInf, .negInf => .nan

/-- IEEE multiplication on the idealized domain (`0 * ∞ = nan`). -/
def FVal.mul : FVal → FVal → FVal
  | .nan, _ => .nan
  | _, .nan => .nan
  | .num a, .num b => .num (qMul a b)
  | .num a, .posInf => if 0 < a.num then .posInf else if a.num < 0 then .negInf else .nan
  | .num a, .negInf => if 0 < a.num then .negInf else if a.num < 0 then .posInf else .nan
  | .posInf, .num b => if 0 < b.num then .posInf else if b.num < 0 then .negInf else .nan
  | .negInf, .num b => if 0 < b.num then .negInf else if b.num < 0 then .posInf else .nan
  | .posInf, .posInf => .posInf
  | .posInf, .negInf => .negInf
  | .negInf, .posInf => .negInf
  | .negInf, .negInf => .posInf

/-- IEEE division on the idealized domain: a nonzero finite value
divided by zero is a signed infinity, `0/0 = nan` (with a single,
unsigned zero). -/
def FVal.div : FVal → FVal → FVal
  | .nan, _ => .nan
  | _, .nan => .nan
  | .num a, .num b =>
    if b.num = 0 then
      if 0 < a.num then .posInf else if a.num < 0 then .negInf else .nan
    else .num (qDiv a b)
  | .num _, .posInf => .num 0
  | .num _, .negInf => .num 0
  | .posInf, .num b => if b.num < 0 then .negInf else .posInf
  | .negInf, .num b => if b.num < 0 then .posInf else .negInf
  | .posInf, _ => .nan
  | .negInf, _ => .nan

/-- Model of `f64::powf` restricted to the regime the program's
scenarios exercise: a finite base with an integer exponent, where IEEE
754 is exact (including `powf(0,0) = 1` and `powf(0,-n) = +inf`).
Non-integer exponents (whose results are irrational in general) and
non-finite operands are conservatively collapsed to `nan`; no claim
depends on them. -/
def FVal.powf : FVal → FVal → FVal
  | .num a, .num b =>
    if b.den = 1 then
      if a.num = 0 ∧ b.num < 0 then .posInf else .num (qPow a b.num)
    else .nan
  | _, _ => .nan

/-- Translation of the AST `Node` of `ast.rs`. -/
inductive Node where
  | element (value : ℚ)
  | negative (child : Node)
  | sum (left right : Node)
  | subtract (left right : Node)
  | multiply (left right : Node)
  | divide (left right : Node)
  | power (left right : Node)
deriving DecidableEq

deriving instance DecidableEq for Except

/-- Translation of `Node::eval`. -/
def Node.eval : Node → FVal
  | .element q => .num q
  | .negative n => (eval n).neg
  | .sum l r => (eval l).add (eval r)
  | .subtract l r => (eval l).sub (eval r)
  | .multiply l r => (eval l).mul (eval r)
  | .divide l r => (eval l).div (eval r)
  | .power l r => (eval l).powf (eval r)

/-- The whitespace filter installed by `Tokenizer::new`
(`char::is_ascii_whitespace`). -/
def isAsciiWhitespace (c : Char) : Bool :=
  c = ' ' || c = '\t' || c = '\n' || c = '\x0C' || c = '\r'

/-- Continuation condition of the numeral loop in `Tokenizer::token`
(`next_char.is_numeric() || next_char == &'.'`).  Rust's
`char::is_numeric` also accepts non-ASCII Unicode numeric characters;
the model restricts it to ASCII digits, with which it coincides on every
ASCII input (a non-ASCII numeric character is treated as unrecognized
instead of extending the chunk, and in both readings such an input is
malformed). -/
def isNumericContinuation (c : Char) : Bool :=
  c.isDigit || c = '.'

/-- Value of a list of ASCII digits read in base 10. -/
def digitsToNat (l : List Char) : Nat :=
  l.foldl (fun a c => 10 * a + (c.toNat - '0'.toNat)) 0

/-- Model of `number.parse::<f64>()` on the chunks the tokenizer can
accumulate (a digit followed by digits and dots): the parse succeeds
exactly when the chunk holds at most one dot, and its value is the exact
decimal value of the digits. -/
def parseChunk (chunk : List Char) : Option ℚ :=
  if (chunk.filter (fun c => c = '.')).length ≤ 1 then
    let intPart := chunk.takeWhile (fun c => c ≠ '.')
    let fracPart := (chunk.dropWhile (fun c => c ≠ '.')).drop 1
    some (mkRat
      ((digitsToNat intPart : Int) * (10 : Int) ^ fracPart.length
        + (digitsToNat fracPart : Int))
      ((10 : Nat) ^ fracPart.length))
  else none

/-- Outcome of one call of the iterator `Tokenizer::next`
(= `Tokenizer::token`): either a token, or `eos` — the call returned
`None` ("no more tokens"). -/
inductive TokStep where
  | tok (t : Token)
  | eos
deriving DecidableEq

/-- Translation of `Tokenizer::token`, acting on the
whitespace-filtered character stream.  The outer `none` models the
`unwrap` panic on a numeral chunk that `f64` parsing rejects.  Note the
source returns `Some(Token::EOF)` whenever the characters are exhausted,
and `None` (with the unrecognized character consumed) when it meets an
unrecognized character. -/
def tokenStep : List Char → Option (TokStep × List Char)
  | [] => some (.tok .eof, [])
  | c :: rest =>
    if c.isDigit then
      match parseChunk (c :: rest.takeWhile isNumericContinuation) with
      | some q => some (.tok (.number q), rest.dropWhile isNumericContinuation)
      | none => none
    else if c = '+' then some (.tok .plus, rest)
    else if c = '-' then some (.tok .minus, rest)
    else if c = '*' then some (.tok .asterisk, rest)
    else if c = '/' then some (.tok .slash, rest)
    else if c = '^' then some (.tok .caret, rest)
    else if c = '(' then some (.tok .leftParenthesis, rest)
    else if c = ')' then some (.tok .rightParenthesis, rest)
    else some (.eos, rest)

/-- Result of the n-th read (0-based) from a fresh tokenizer over the
given filtered characters; `none` models a panic on the way. -/
def readN : Nat → List Char → Option (TokStep × List Char)
  | 0, cs => tokenStep cs
  | n + 1, cs =>
    match tokenStep cs with
    | none => none
    | some (_, cs1) => readN n cs1

/-- Everything the parser can observe of the token stream: the tokens
produced before the stream's end, and whether the end is the clean end
of input (after which `Tokenizer::token` answers `EOF` forever) or an
early stop at an unrecognized character (after which the parser's next
pull gets `None` and aborts).  `panicked` records the `unwrap` panic on
a malformed numeral. -/
inductive TokenizeResult where
  | panicked
  | tokens (ts : List Token) (clean : Bool)
deriving DecidableEq

/-- Prepend a token to an (optional, fueled) tokenization result. -/
def consTok (t : Token) : Option TokenizeResult → Option TokenizeResult
  | some (.tokens ts clean) => some (.tokens (t :: ts) clean)
  | r => r

/-- Fueled unfolding of `tokenStep` into the finite token list the
parser consumes; `none` means the fuel ran out (one unit per produced
token always suffices, proved below).  A clean end of input yields
`tokens ts true`, an early stop at an unrecognized character yields
`tokens ts false`, and a numeral-parse panic yields `panicked`. -/
def tokenListF : Nat → List Char → Option TokenizeResult
  | 0, _ => none
  | _ + 1, [] => some (.tokens [] true)
  | fuel + 1, c :: rest =>
    match tokenStep (c :: rest) with
    | none => some .panicked
    | some (.eos, _) => some (.tokens [] false)
    | some (.tok t, r) => consTok t (tokenListF fuel r)

/-- Characters the tokenizer of the given input actually sees. -/
def charStream (s : String) : List Char :=
  s.data.filter (fun c => isAsciiWhitespace c = false)

/-- Tokenization of a character stream.  The fuel `length + 1` always
suffices (proved below), so the `getD` default is never taken. -/
def tokenizeChars (cs : List Char) : TokenizeResult :=
  (tokenListF (cs.length + 1) cs).getD .panicked

/-- Tokenization of an input string. -/
def tokenize (s : String) : TokenizeResult :=
  tokenizeChars (charStream s)

namespace Parser

/-- State of the parser's token cursor (`Peekable<Tokenizer>`): the
tokens not yet consumed, and whether the stream's end is the clean end
of input (`clean = true`: every further pull answers `EOF`) or an early
stop at an unrecognized character (`clean = false`: every further pull
answers `None`).  The Rust iterator could in principle resume past the
unrecognized character, but the parser aborts on the first `None`, so
the absorbing model is observationally equivalent. -/
structure TState where
  ts : List Token
  clean : Bool
deriving DecidableEq

/-- Pull one token (`self.tokenizer.next()`). -/
def nextTok : TState → Option Token × TState
  | ⟨t :: r, b⟩ => (some t, ⟨r, b⟩)
  | ⟨[], true⟩ => (some .eof, ⟨[], true⟩)
  | ⟨[], false⟩ => (none, ⟨[], false⟩)

/-- Inspect the next token without consuming it
(`self.tokenizer.peek()`). -/
def peekTok (s : TState) : Option Token :=
  (nextTok s).1

/-- Result of a fueled parser computation: `none` when the fuel ran
out, otherwise the Rust `Result<(Node, cursor), ParseError>`. -/
abbrev PRes := Option (Except ParseError (Node × TState))

/-- Sequencing of parser steps (the `?` operator of the source). -/
def andThen (r : PRes) (f : Node × TState → PRes) : PRes :=
  match r with
  | none => none
  | some (.error e) => some (.error e)
  | some (.ok x) => f x

mutual

/-- Translation of `Parser::number` (the primary-operand parser). -/
def number : (fuel : Nat) → TState → PRes
  | 0, _ => none
  | fuel + 1, s =>
    match nextTok s with
    | (none, _) => some (.error (.unableToParse "Number parse error"))
    | (some t, s1) =>
      match t with
      | .plus => number fuel s1
      | .minus =>
        andThen (number fuel s1) (fun x => some (.ok (.negative x.1, x.2)))
      | .number q => some (.ok (.element q, s1))
      | .leftParenthesis =>
        andThen (ast fuel .default s1) (fun x =>
          match nextTok x.2 with
          | (some .rightParenthesis, s3) => some (.ok (x.1, s3))
          | _ => some (.error .parenthesisNotBalanced))
      | t1 => some (.error (.invalidNumber t1.debugString))

/-- Translation of `Parser::ast`: parse a primary operand, then run the
climbing loop (`astLoop`). -/
def ast : (fuel : Nat) → OperationPrecedence → TState → PRes
  | 0, _, _ => none
  | fuel + 1, p, s =>
    andThen (number fuel s) (fun x => astLoop fuel p x.1 x.2)

/-- Translation of the `loop` inside `Parser::ast`: peek, stop on `EOF`
or on an operator whose precedence does not exceed the floor, fail on
`None`, otherwise consume one operation and continue. -/
def astLoop : (fuel : Nat) → OperationPrecedence → Node → TState → PRes
  | 0, _, _, _ => none
  | fuel + 1, p, left, s =>
    match peekTok s with
    | none => some (.error (.unableToParse "Unknown char"))
    | some .eof => some (.ok (left, s))
    | some t =>
      if OperationPrecedence.lt p t.operation_precedence then
        andThen (operation fuel left s) (fun x => astLoop fuel p x.1 x.2)
      else
        some (.ok (left, s))

/-- Translation of `Parser::operation` (consume one operator and its
right-hand side). -/
def operation : (fuel : Nat) → Node → TState → PRes
  | 0, _, _ => none
  | fuel + 1, left, s =>
    match nextTok s with
    | (none, _) => some (.error (.unableToParse "Operator parse error"))
    | (some t, s1) =>
      match t with
      | .plus =>
        andThen (ast fuel Token.plus.operation_precedence s1)
          (fun x => some (.ok (.sum left x.1, x.2)))
      | .minus =>
        andThen (ast fuel Token.minus.operation_precedence s1)
          (fun x => some (.ok (.subtract left x.1, x.2)))
      | .asterisk =>
        andThen (ast fuel Token.asterisk.operation_precedence s1)
          (fun x => some (.ok (.multiply left x.1, x.2)))
      | .slash =>
        andThen (ast fuel Token.slash.operation_precedence s1)
          (fun x => some (.ok (.divide left x.1, x.2)))
      | .caret =>
        andThen (ast fuel Token.caret.operation_precedence s1)
          (fun x => some (.ok (.power left x.1, x.2)))
      | .leftParenthesis =>
        andThen (ast fuel .default s1) (fun x =>
          match nextTok x.2 with
          | (some .rightParenthesis, s3) => some (.ok (.multiply left x.1, s3))
          | _ => some (.error .parenthesisNotBalanced))
      | t1 => some (.error (.invalidOperator t1.debugString))

end

/-- Fuel that always suffices for `ast` on a token list (proved below):
linear in the number of tokens, hence in the input length. -/
def astFuel (ts : List Token) : Nat :=
  4 * ts.length + 4

/-- Translation of `Parser::parse`: tokenize, then run `ast` at
`Default` precedence with sufficient fuel.  `none` models the tokenizer
panic on a malformed numeral (for a successful tokenization the result
is always `some`, proved below). -/
def parse (s : String) : Option (Except ParseError Node) :=
  match tokenize s with
  | .panicked => none
  | .tokens ts clean =>
    match ast (astFuel ts) .default ⟨ts, clean⟩ with
    | none => none
    | some (.error e) => some (.error e)
    | some (.ok (n, _)) => some (.ok n)

/-- Translation of `Parser::evaluate`: parse, then evaluate the tree. -/
def evaluate (s : String) : Option (Except ParseError FVal) :=
  match parse s with
  | none => none
  | some (.error e) => some (.error e)
  | some (.ok n) => some (.ok n.eval)

end Parser

/-- A string is a well-formed expression when tokenization succeeds
without meeting an unrecognized character and `Parser::ast` at
`Default` precedence consumes the whole token list successfully. -/
def wellFormed (s : String) : Bool :=
  match tokenize s with
  | .tokens ts true =>
    match Parser.ast (Parser.astFuel ts) .default ⟨ts, true⟩ with
    | some (.ok (_, ⟨[], true⟩)) => true
    | _ => false
  | _ => false

/-- Check that a parse outcome is not an `InvalidOperator` error. -/
def notInvalidOperator : Option (Except ParseError Node) → Bool
  | some (.error (.invalidOperator _)) => false
  | _ => true

/-- Combine the tokens of a clean prefix with the tokenization of the
remaining characters. -/
def prependToks (tsx : List Token) : TokenizeResult → TokenizeResult
  | .panicked => .panicked
  | .tokens tsy b => .tokens (tsx ++ tsy) b

theorem takeWhile_append_sep {α : Type} (p : α → Bool) (l ys : List α)
    (hsep : ∀ d ds, ys = d :: ds → p d = false) :
    (l ++ ys).takeWhile p = l.takeWhile p := by
  induction l with
  | nil =>
    cases ys with
    | nil => rfl
    | cons d ds => simp [List.takeWhile_cons, hsep d ds rfl]
  | cons a l ih =>
    simp only [List.cons_append, List.takeWhile_cons]
    cases hpa : p a <;> simp [ih]

theorem dropWhile_append_sep {α : Type} (p : α → Bool) (l ys : List α)
    (hsep : ∀ d ds, ys = d :: ds → p d = false) :
    (l ++ ys).dropWhile p = l.dropWhile p ++ ys := by
  induction l with
  | nil =>
    cases ys with
    | nil => rfl
    | cons d ds => simp [List.dropWhile_cons, hsep d ds rfl]
  | cons a l ih =>
    simp only [List.cons_append, List.dropWhile_cons]
    cases hpa : p a <;> simp [ih]

theorem length_dropWhile_le_self {α : Type} (p : α → Bool) (l : List α) :
    (l.dropWhile p).length ≤ l.length := by
  induction l with
  | nil => simp [List.dropWhile]
  | cons a l ih =>
    simp only [List.dropWhile_cons]
    cases hpa : p a <;> (simp; try omega)

theorem tokenStep_cons_length {c : Char} {rest r : List Char} {st : TokStep}
    (h : tokenStep (c :: rest) = some (st, r)) : r.length ≤ rest.length := by
  simp only [tokenStep] at h
  by_cases h1 : c.isDigit = true
  · rw [if_pos h1] at h
    cases hpc : parseChunk (c :: rest.takeWhile isNumericContinuation) with
    | none => rw [hpc] at h; cases h
    | some q =>
      rw [hpc] at h
      cases h
      exact length_dropWhile_le_self _ _
  · rw [if_neg h1] at h
    by_cases h2 : c = '+'
    · rw [if_pos h2] at h; cases h; exact Nat.le_refl _
    rw [if_neg h2] at h
    by_cases h3 : c = '-'
    · rw [if_pos h3] at h; cases h; exact Nat.le_refl _
    rw [if_neg h3] at h
    by_cases h4 : c = '*'
    · rw [if_pos h4] at h; cases h; exact Nat.le_refl _
    rw [if_neg h4] at h
    by_cases h5 : c = '/'
    · rw [if_pos h5] at h; cases h; exact Nat.le_refl _
    rw [if_neg h5] at h
    by_cases h6 : c = '^'
    · rw [if_pos h6] at h; cases h; exact Nat.le_refl _
    rw [if_neg h6] at h
    by_cases h7 : c = '('
    · rw [if_pos h7] at h; cases h; exact Nat.le_refl _
    rw [if_neg h7] at h
    by_cases h8 : c = ')'
    · rw [if_pos h8] at h; cases h; exact Nat.le_refl _
    rw [if_neg h8] at h
    cases h
    exact Nat.le_refl _

theorem tokenStep_append_sep {c : Char} {rest r ys : List Char} {t : Token}
    (hsep : ∀ d ds, ys = d :: ds → isNumericContinuation d = false)
    (h : tokenStep (c :: rest) = some (.tok t, r)) :
    tokenStep ((c :: rest) ++ ys) = some (.tok t, r ++ ys) := by
  simp only [List.cons_append, tokenStep] at h ⊢
  by_cases h1 : c.isDigit = true
  · rw [if_pos h1] at h ⊢
    rw [takeWhile_append_sep _ _ _ hsep, dropWhile_append_sep _ _ _ hsep]
    cases hpc : parseChunk (c :: rest.takeWhile isNumericContinuation) with
    | none => rw [hpc] at h; cases h
    | some q => rw [hpc] at h; cases h; rfl
  · rw [if_neg h1] at h ⊢
    by_cases h2 : c = '+'
    · rw [if_pos h2] at h ⊢; cases h; rfl
    rw [if_neg h2] at h ⊢
    by_cases h3 : c = '-'
    · rw [if_pos h3] at h ⊢; cases h; rfl
    rw [if_neg h3] at h ⊢
    by_cases h4 : c = '*'
    · rw [if_pos h4] at h ⊢; cases h; rfl
    rw [if_neg h4] at h ⊢
    by_cases h5 : c = '/'
    · rw [if_pos h5] at h ⊢; cases h; rfl
    rw [if_neg h5] at h ⊢
    by_cases h6 : c = '^'
    · rw [if_pos h6] at h ⊢; cases h; rfl
    rw [if_neg h6] at h ⊢
    by_cases h7 : c = '('
    · rw [if_pos h7] at h ⊢; cases h; rfl
    rw [if_neg h7] at h ⊢
    by_cases h8 : c = ')'
    · rw [if_pos h8] at h ⊢; cases h; rfl
    rw [if_neg h8] at h ⊢
    cases h

theorem tokenListF_mono (fuel : Nat) :
    ∀ (fuel2 : Nat) (cs : List Char) (r : TokenizeResult), fuel ≤ fuel2 →
      tokenListF fuel cs = some r → tokenListF fuel2 cs = some r := by
  induction fuel with
  | zero => intro fuel2 cs r _ h; simp [tokenListF] at h
  | succ fuel ih =>
    intro fuel2 cs r hle h
    obtain ⟨k, rfl⟩ : ∃ k, fuel2 = k + 1 := ⟨fuel2 - 1, by omega⟩
    cases cs with
    | nil => simpa [tokenListF] using h
    | cons c rest =>
      simp only [tokenListF] at h ⊢
      cases hts : tokenStep (c :: rest) with
      | none => rw [hts] at h; exact h
      | some pr =>
        obtain ⟨st, rr⟩ := pr
        cases st with
        | eos => rw [hts] at h; exact h
        | tok t =>
          rw [hts] at h
          change consTok t (tokenListF fuel rr) = some r at h
          change consTok t (tokenListF k rr) = some r
          cases hrec : tokenListF fuel rr with
          | none => rw [hrec] at h; cases h
          | some inner =>
            rw [ih k rr inner (by omega) hrec]
            rwa [hrec] at h

theorem tokenListF_sufficient (fuel : Nat) :
    ∀ cs : List Char, cs.length < fuel → ∃ r, tokenListF fuel cs = some r := by
  induction fuel with
  | zero => intro cs h; omega
  | succ fuel ih =>
    intro cs hlen
    cases cs with
    | nil => exact ⟨.tokens [] true, rfl⟩
    | cons c rest =>
      simp only [tokenListF]
      cases hts : tokenStep (c :: rest) with
      | none => exact ⟨.panicked, rfl⟩
      | some pr =>
        obtain ⟨st, rr⟩ := pr
        cases st with
        | eos => exact ⟨.tokens [] false, rfl⟩
        | tok t =>
          have hr := tokenStep_cons_length hts
          have hlen2 : rr.length < fuel := by
            simp only [List.length_cons] at hlen
            omega
          obtain ⟨inner, hinner⟩ := ih rr hlen2
          show ∃ r, consTok t (tokenListF fuel rr) = some r
          rw [hinner]
          cases inner with
          | panicked => exact ⟨.panicked, rfl⟩
          | tokens ts b => exact ⟨.tokens (t :: ts) b, rfl⟩

theorem tokenListF_unique {fuel1 fuel2 : Nat} {cs : List Char} {r1 r2 : TokenizeResult}
    (h1 : tokenListF fuel1 cs = some r1) (h2 : tokenListF fuel2 cs = some r2) : r1 = r2 := by
  rcases Nat.le_total fuel1 fuel2 with hle | hle
  · have := tokenListF_mono fuel1 fuel2 cs r1 hle h1
    rw [this] at h2
    exact Option.some.inj h2
  · have := tokenListF_mono fuel2 fuel1 cs r2 hle h2
    rw [this] at h1
    exact (Option.some.inj h1).symm

theorem tokenListF_concat (fuel : Nat) :
    ∀ (cs ys : List Char) (tsx : List Token) (fuel2 : Nat) (ry : TokenizeResult),
      (∀ d ds, ys = d :: ds → isNumericContinuation d = false) →
      tokenListF fuel cs = some (.tokens tsx true) →
      tokenListF fuel2 ys = some ry →
      tokenListF (fuel + fuel2) (cs ++ ys) = some (prependToks tsx ry) := by
  induction fuel with
  | zero => intro cs ys tsx fuel2 ry _ h _; simp [tokenListF] at h
  | succ fuel ih =>
    intro cs ys tsx fuel2 ry hsep h hy
    cases cs with
    | nil =>
      simp only [tokenListF] at h
      cases h
      simp only [List.nil_append, prependToks, List.nil_append]
      cases ry with
      | panicked => exact tokenListF_mono fuel2 _ ys _ (by omega) hy
      | tokens tsy b => exact tokenListF_mono fuel2 _ ys _ (by omega) hy
    | cons c rest =>
      simp only [tokenListF] at h
      cases hts : tokenStep (c :: rest) with
      | none => rw [hts] at h; cases h
      | some pr =>
        obtain ⟨st, rr⟩ := pr
        cases st with
        | eos => rw [hts] at h; cases h
        | tok t =>
          rw [hts] at h
          change consTok t (tokenListF fuel rr) = _ at h
          cases hrec : tokenListF fuel rr with
          | none => rw [hrec] at h; cases h
          | some inner =>
            rw [hrec] at h
            cases inner with
            | panicked => simp [consTok] at h
            | tokens ts b =>
              simp only [consTok, Option.some.injEq] at h
              cases b with
              | false => cases h
              | true =>
                have htsx : tsx = t :: ts := by
                  cases h
                  rfl
                subst htsx
                have hstep := @tokenStep_append_sep c rest rr ys t hsep hts
                simp only [List.cons_append] at hstep
                have hrecc := ih rr ys ts fuel2 ry hsep hrec hy
                have harith : fuel + 1 + fuel2 = (fuel + fuel2) + 1 := by omega
                rw [harith]
                simp only [List.cons_append, tokenListF, List.append_eq]
                rw [hstep]
                change consTok t (tokenListF (fuel + fuel2) (rr ++ ys)) = _
                rw [hrecc]
                cases ry with
                | panicked => rfl
                | tokens tsy by2 => rfl

namespace Parser

theorem andThen_some {r : PRes} {f : Node × TState → PRes} {out : Except ParseError (Node × TState)}
    (h : andThen r f = some out) :
    (∃ e, r = some (.error e) ∧ out = .error e) ∨ (∃ x, r = some (.ok x) ∧ f x = some out) := by
  cases r with
  | none => simp [andThen] at h
  | some ex =>
    cases ex with
    | error e =>
      left
      refine ⟨e, rfl, ?_⟩
      simpa [andThen] using h.symm
    | ok x =>
      right
      exact ⟨x, rfl, by simpa [andThen] using h⟩

theorem lt_default_false (p : OperationPrecedence) :
    OperationPrecedence.lt p .default = false := by
  cases p <;> rfl

theorem parserLenAux (fuel : Nat) :
    (∀ s n s2, number fuel s = some (.ok (n, s2)) → s2.ts.length < s.ts.length) ∧
    (∀ p s n s2, ast fuel p s = some (.ok (n, s2)) → s2.ts.length < s.ts.length) ∧
    (∀ p left s n s2, astLoop fuel p left s = some (.ok (n, s2)) → s2.ts.length ≤ s.ts.length) ∧
    (∀ left s n s2, operation fuel left s = some (.ok (n, s2)) → s2.ts.length < s.ts.length) := by
  induction fuel with
  | zero =>
    refine ⟨?_, ?_, ?_, ?_⟩ <;> intros _ _ _ <;> intros <;>
      simp [number, ast, astLoop, operation] at *
  | succ fuel ih =>
    obtain ⟨ihN, ihA, ihL, ihO⟩ := ih
    refine ⟨?_, ?_, ?_, ?_⟩
    · -- number
      intro s n s2 h
      obtain ⟨ts, b⟩ := s
      cases ts with
      | nil => cases b <;> simp [number, nextTok] at h
      | cons t r =>
        show s2.ts.length < r.length + 1
        simp only [number, nextTok] at h
        cases t
        case plus =>
          have hlen : s2.ts.length < r.length := ihN _ _ _ h
          omega
        case minus =>
          rcases andThen_some h with ⟨e, h1, h2⟩ | ⟨⟨x1, x2⟩, h1, h2⟩
          · simp at h2
          · simp only [Option.some.injEq, Except.ok.injEq, Prod.mk.injEq] at h2
            obtain ⟨_, hs⟩ := h2
            subst hs
            have hlen : x2.ts.length < r.length := ihN _ _ _ h1
            omega
        case number q =>
          simp only [Option.some.injEq, Except.ok.injEq, Prod.mk.injEq] at h
          obtain ⟨_, hs⟩ := h
          subst hs
          show r.length < r.length + 1
          omega
        case leftParenthesis =>
          rcases andThen_some h with ⟨e, h1, h2⟩ | ⟨⟨x1, x2⟩, h1, h2⟩
          · simp at h2
          · obtain ⟨ts2, b2⟩ := x2
            have hinner : ts2.length < r.length := ihA _ _ _ _ h1
            cases ts2 with
            | nil => cases b2 <;> simp [nextTok] at h2
            | cons t2 r2 =>
              cases t2
              case rightParenthesis =>
                simp only [nextTok, Option.some.injEq, Except.ok.injEq, Prod.mk.injEq] at h2
                obtain ⟨_, hs⟩ := h2
                subst hs
                show r2.length < r.length + 1
                simp only [List.length_cons] at hinner
                omega
              all_goals simp [nextTok] at h2
        all_goals simp at h
    · -- ast
      intro p s n s2 h
      simp only [ast] at h
      rcases andThen_some h with ⟨e, h1, h2⟩ | ⟨⟨x1, x2⟩, h1, h2⟩
      · simp at h2
      · have hN : x2.ts.length < s.ts.length := ihN _ _ _ h1
        have hL : s2.ts.length ≤ x2.ts.length := ihL _ _ _ _ _ h2
        omega
    · -- astLoop
      intro p left s n s2 h
      obtain ⟨ts, b⟩ := s
      cases ts with
      | nil =>
        cases b
        · simp [astLoop, peekTok, nextTok] at h
        · simp only [astLoop, peekTok, nextTok, Option.some.injEq, Except.ok.injEq,
            Prod.mk.injEq] at h
          obtain ⟨_, hs⟩ := h
          subst hs
          exact Nat.le_refl _
      | cons t r =>
        show s2.ts.length ≤ r.length + 1
        cases t
        case eof =>
          simp only [astLoop, peekTok, nextTok, Option.some.injEq, Except.ok.injEq,
            Prod.mk.injEq] at h
          obtain ⟨_, hs⟩ := h
          subst hs
          exact Nat.le_refl _
        all_goals (
          simp only [astLoop, peekTok, nextTok] at h
          split at h
          · rcases andThen_some h with ⟨e, h1, h2⟩ | ⟨⟨x1, x2⟩, h1, h2⟩
            · simp at h2
            · have hO : x2.ts.length < r.length + 1 := ihO _ _ _ _ h1
              have hL : s2.ts.length ≤ x2.ts.length := ihL _ _ _ _ _ h2
              omega
          · simp only [Option.some.injEq, Except.ok.injEq, Prod.mk.injEq] at h
            obtain ⟨_, hs⟩ := h
            subst hs
            exact Nat.le_refl _)
    · -- operation
      intro left s n s2 h
      obtain ⟨ts, b⟩ := s
      cases ts with
      | nil => cases b <;> simp [operation, nextTok] at h
      | cons t r =>
        show s2.ts.length < r.length + 1
        simp only [operation, nextTok] at h
        cases t
        case plus | minus | asterisk | slash | caret =>
          rcases andThen_some h with ⟨e, h1, h2⟩ | ⟨⟨x1, x2⟩, h1, h2⟩
          · simp at h2
          · simp only [Option.some.injEq, Except.ok.injEq, Prod.mk.injEq] at h2
            obtain ⟨_, hs⟩ := h2
            subst hs
            have hlen : x2.ts.length < r.length := ihA _ _ _ _ h1
            omega
        case leftParenthesis =>
          rcases andThen_some h with ⟨e, h1, h2⟩ | ⟨⟨x1, x2⟩, h1, h2⟩
          · simp at h2
          · obtain ⟨ts2, b2⟩ := x2
            have hinner : ts2.length < r.length := ihA _ _ _ _ h1
            cases ts2 with
            | nil => cases b2 <;> simp [nextTok] at h2
            | cons t2 r2 =>
              cases t2
              case rightParenthesis =>
                simp only [nextTok, Option.some.injEq, Except.ok.injEq, Prod.mk.injEq] at h2
                obtain ⟨_, hs⟩ := h2
                subst hs
                show r2.length < r.length + 1
                simp only [List.length_cons] at hinner
                omega
              all_goals simp [nextTok] at h2
        all_goals simp at h

theorem parserFuelAux (fuel : Nat) :
    (∀ s, 4 * s.ts.length + 1 ≤ fuel → ∃ r, number fuel s = some r) ∧
    (∀ p s, 4 * s.ts.length + 4 ≤ fuel → ∃ r, ast fuel p s = some r) ∧
    (∀ p left s, 4 * s.ts.length + 3 ≤ fuel → ∃ r, astLoop fuel p left s = some r) ∧
    (∀ left s, 4 * s.ts.length + 2 ≤ fuel → ∃ r, operation fuel left s = some r) := by
  induction fuel with
  | zero => refine ⟨?_, ?_, ?_, ?_⟩ <;> intros <;> omega
  | succ fuel ih =>
    obtain ⟨ihN, ihA, ihL, ihO⟩ := ih
    refine ⟨?_, ?_, ?_, ?_⟩
    · -- number
      intro s h
      obtain ⟨ts, b⟩ := s
      cases ts with
      | nil => cases b <;> exact ⟨_, rfl⟩
      | cons t r =>
        have hlen : 4 * r.length + 5 ≤ fuel + 1 := h
        simp only [number, nextTok]
        cases t
        case plus => exact ihN ⟨r, b⟩ (show 4 * r.length + 1 ≤ fuel by omega)
        case minus =>
          obtain ⟨ri, hri⟩ := ihN ⟨r, b⟩ (show 4 * r.length + 1 ≤ fuel by omega)
          rw [hri]
          cases ri with
          | error e => exact ⟨_, rfl⟩
          | ok x => exact ⟨_, rfl⟩
        case number q => exact ⟨_, rfl⟩
        case leftParenthesis =>
          obtain ⟨ri, hri⟩ := ihA .default ⟨r, b⟩ (show 4 * r.length + 4 ≤ fuel by omega)
          rw [hri]
          cases ri with
          | error e => exact ⟨_, rfl⟩
          | ok x =>
            obtain ⟨x1, x2⟩ := x
            obtain ⟨ts2, b2⟩ := x2
            cases ts2 with
            | nil => cases b2 <;> exact ⟨_, rfl⟩
            | cons t2 r2 => cases t2 <;> exact ⟨_, rfl⟩
        all_goals exact ⟨_, rfl⟩
    · -- ast
      intro p s h
      have hlen : 4 * s.ts.length + 4 ≤ fuel + 1 := h
      simp only [ast]
      obtain ⟨rn, hrn⟩ := ihN s (show 4 * s.ts.length + 1 ≤ fuel by omega)
      rw [hrn]
      cases rn with
      | error e => exact ⟨_, rfl⟩
      | ok x =>
        obtain ⟨x1, x2⟩ := x
        have hx2 : x2.ts.length < s.ts.length := (parserLenAux fuel).1 _ _ _ hrn
        obtain ⟨rl, hrl⟩ := ihL p x1 x2 (show 4 * x2.ts.length + 3 ≤ fuel by omega)
        exact ⟨rl, by simp only [andThen]; exact hrl⟩
    · -- astLoop
      intro p left s h
      obtain ⟨ts, b⟩ := s
      cases ts with
      | nil => cases b <;> exact ⟨_, rfl⟩
      | cons t r =>
        have hlen : 4 * r.length + 7 ≤ fuel + 1 := h
        have hop : ∀ tt : Token, ∃ r0, operation fuel left ⟨tt :: r, b⟩ = some r0 :=
          fun tt => ihO left ⟨tt :: r, b⟩ (show 4 * (r.length + 1) + 2 ≤ fuel by omega)
        cases t
        case eof => exact ⟨_, rfl⟩
        all_goals (
          simp only [astLoop, peekTok, nextTok]
          split
          · obtain ⟨ro, hro⟩ := hop _
            rw [hro]
            cases ro with
            | error e => exact ⟨_, rfl⟩
            | ok x =>
              obtain ⟨x1, x2⟩ := x
              have hx2 : x2.ts.length < r.length + 1 := (parserLenAux fuel).2.2.2 _ _ _ _ hro
              obtain ⟨rl, hrl⟩ := ihL p x1 x2 (show 4 * x2.ts.length + 3 ≤ fuel by omega)
              exact ⟨rl, by simp only [andThen]; exact hrl⟩
          · exact ⟨_, rfl⟩)
    · -- operation
      intro left s h
      obtain ⟨ts, b⟩ := s
      cases ts with
      | nil => cases b <;> exact ⟨_, rfl⟩
      | cons t r =>
        have hlen : 4 * r.length + 6 ≤ fuel + 1 := h
        cases t
        case plus | minus | asterisk | slash | caret =>
          simp only [operation, nextTok]
          obtain ⟨ri, hri⟩ := ihA _ ⟨r, b⟩ (show 4 * r.length + 4 ≤ fuel by omega)
          rw [hri]
          cases ri with
          | error e => exact ⟨_, rfl⟩
          | ok x => exact ⟨_, rfl⟩
        case leftParenthesis =>
          simp only [operation, nextTok]
          obtain ⟨ri, hri⟩ := ihA .default ⟨r, b⟩ (show 4 * r.length + 4 ≤ fuel by omega)
          rw [hri]
          cases ri with
          | error e => exact ⟨_, rfl⟩
          | ok x =>
            obtain ⟨x1, x2⟩ := x
            obtain ⟨ts2, b2⟩ := x2
            cases ts2 with
            | nil => cases b2 <;> exact ⟨_, rfl⟩
            | cons t2 r2 => cases t2 <;> exact ⟨_, rfl⟩
        all_goals exact ⟨_, rfl⟩

theorem parserExtAux (fuel : Nat) : ∀ fuel2 : Nat, fuel ≤ fuel2 →
    ∀ (t0 : Token) (rtail : List Token) (c : Bool), t0.operation_precedence = .default →
    (∀ s n s2, number fuel s = some (.ok (n, s2)) →
      number fuel2 ⟨s.ts ++ (t0 :: rtail), c⟩ = some (.ok (n, ⟨s2.ts ++ (t0 :: rtail), c⟩))) ∧
    (∀ p s n s2, ast fuel p s = some (.ok (n, s2)) →
      ast fuel2 p ⟨s.ts ++ (t0 :: rtail), c⟩ = some (.ok (n, ⟨s2.ts ++ (t0 :: rtail), c⟩))) ∧
    (∀ p left s n s2, astLoop fuel p left s = some (.ok (n, s2)) →
      astLoop fuel2 p left ⟨s.ts ++ (t0 :: rtail), c⟩ =
        some (.ok (n, ⟨s2.ts ++ (t0 :: rtail), c⟩))) ∧
    (∀ left s n s2, operation fuel left s = some (.ok (n, s2)) →
      operation fuel2 left ⟨s.ts ++ (t0 :: rtail), c⟩ =
        some (.ok (n, ⟨s2.ts ++ (t0 :: rtail), c⟩))) := by
  induction fuel with
  | zero =>
    intro fuel2 _ t0 rtail c _
    refine ⟨?_, ?_, ?_, ?_⟩ <;> intros _ _ _ <;> intros <;>
      simp [number, ast, astLoop, operation] at *
  | succ fuel ih =>
    intro fuel2 hle t0 rtail c ht0
    obtain ⟨k, rfl⟩ : ∃ k, fuel2 = k + 1 := ⟨fuel2 - 1, by omega⟩
    obtain ⟨ihN, ihA, ihL, ihO⟩ := ih k (by omega) t0 rtail c ht0
    refine ⟨?_, ?_, ?_, ?_⟩
    · -- number
      intro s n s2 h
      obtain ⟨ts, b⟩ := s
      cases ts with
      | nil => cases b <;> simp [number, nextTok] at h
      | cons t r =>
        show number (k + 1) ⟨t :: (r ++ (t0 :: rtail)), c⟩ =
          some (.ok (n, ⟨s2.ts ++ (t0 :: rtail), c⟩))
        simp only [number, nextTok] at h ⊢
        cases t
        case plus =>
          exact ihN ⟨r, b⟩ n s2 h
        case minus =>
          rcases andThen_some h with ⟨e, h1, h2⟩ | ⟨⟨x1, x2⟩, h1, h2⟩
          · simp at h2
          · simp only [Option.some.injEq, Except.ok.injEq, Prod.mk.injEq] at h2
            obtain ⟨hn, hs⟩ := h2
            subst hn
            subst hs
            have hext : number k ⟨r ++ (t0 :: rtail), c⟩ =
                some (.ok (x1, ⟨x2.ts ++ (t0 :: rtail), c⟩)) := ihN ⟨r, b⟩ x1 x2 h1
            rw [hext]
            rfl
        case number q =>
          simp only [Option.some.injEq, Except.ok.injEq, Prod.mk.injEq] at h
          obtain ⟨hn, hs⟩ := h
          subst hn
          subst hs
          rfl
        case leftParenthesis =>
          rcases andThen_some h with ⟨e, h1, h2⟩ | ⟨⟨x1, x2⟩, h1, h2⟩
          · simp at h2
          · obtain ⟨ts2, b2⟩ := x2
            cases ts2 with
            | nil => cases b2 <;> simp [nextTok] at h2
            | cons t2 r2 =>
              cases t2
              case rightParenthesis =>
                simp only [nextTok, Option.some.injEq, Except.ok.injEq, Prod.mk.injEq] at h2
                obtain ⟨hn, hs⟩ := h2
                subst hn
                subst hs
                have hext : ast k .default ⟨r ++ (t0 :: rtail), c⟩ =
                    some (.ok (x1, ⟨.rightParenthesis :: (r2 ++ (t0 :: rtail)), c⟩)) :=
                  ihA .default ⟨r, b⟩ x1 ⟨.rightParenthesis :: r2, b2⟩ h1
                rw [hext]
                rfl
              all_goals simp [nextTok] at h2
        all_goals simp at h
    · -- ast
      intro p s n s2 h
      simp only [ast] at h ⊢
      rcases andThen_some h with ⟨e, h1, h2⟩ | ⟨⟨x1, x2⟩, h1, h2⟩
      · simp at h2
      · have hn : number k ⟨s.ts ++ (t0 :: rtail), c⟩ =
            some (.ok (x1, ⟨x2.ts ++ (t0 :: rtail), c⟩)) := ihN s x1 x2 h1
        have hl : astLoop k p x1 ⟨x2.ts ++ (t0 :: rtail), c⟩ =
            some (.ok (n, ⟨s2.ts ++ (t0 :: rtail), c⟩)) := ihL p x1 x2 n s2 h2
        rw [hn]
        simpa only [andThen] using hl
    · -- astLoop
      intro p left s n s2 h
      obtain ⟨ts, b⟩ := s
      cases ts with
      | nil =>
        cases b
        · simp [astLoop, peekTok, nextTok] at h
        · simp only [astLoop, peekTok, nextTok, Option.some.injEq, Except.ok.injEq,
            Prod.mk.injEq] at h
          obtain ⟨hn, hs⟩ := h
          subst hn
          subst hs
          show astLoop (k + 1) p left ⟨t0 :: rtail, c⟩ = some (.ok (left, ⟨t0 :: rtail, c⟩))
          cases t0 <;> simp only [Token.operation_precedence] at ht0 <;> try cases ht0
          all_goals
            simp [astLoop, peekTok, nextTok, Token.operation_precedence, lt_default_false]
      | cons t r =>
        show astLoop (k + 1) p left ⟨t :: (r ++ (t0 :: rtail)), c⟩ =
          some (.ok (n, ⟨s2.ts ++ (t0 :: rtail), c⟩))
        cases t
        case eof =>
          simp only [astLoop, peekTok, nextTok, Option.some.injEq, Except.ok.injEq,
            Prod.mk.injEq] at h
          obtain ⟨hn, hs⟩ := h
          subst hn
          subst hs
          rfl
        all_goals (
          simp only [astLoop, peekTok, nextTok] at h ⊢
          split at h
          · rename_i hcond
            rw [if_pos hcond]
            rcases andThen_some h with ⟨e, h1, h2⟩ | ⟨⟨x1, x2⟩, h1, h2⟩
            · simp at h2
            · have ho : operation k left ⟨_ :: (r ++ (t0 :: rtail)), c⟩ =
                  some (.ok (x1, ⟨x2.ts ++ (t0 :: rtail), c⟩)) := ihO left ⟨_ :: r, b⟩ x1 x2 h1
              have hl : astLoop k p x1 ⟨x2.ts ++ (t0 :: rtail), c⟩ =
                  some (.ok (n, ⟨s2.ts ++ (t0 :: rtail), c⟩)) := ihL p x1 x2 n s2 h2
              rw [ho]
              simpa only [andThen] using hl
          · rename_i hcond
            rw [if_neg hcond]
            simp only [Option.some.injEq, Except.ok.injEq, Prod.mk.injEq] at h
            obtain ⟨hn, hs⟩ := h
            subst hn
            subst hs
            rfl)
    · -- operation
      intro left s n s2 h
      obtain ⟨ts, b⟩ := s
      cases ts with
      | nil => cases b <;> simp [operation, nextTok] at h
      | cons t r =>
        show operation (k + 1) left ⟨t :: (r ++ (t0 :: rtail)), c⟩ =
          some (.ok (n, ⟨s2.ts ++ (t0 :: rtail), c⟩))
        simp only [operation, nextTok] at h ⊢
        cases t
        case plus | minus | asterisk | slash | caret =>
          rcases andThen_some h with ⟨e, h1, h2⟩ | ⟨⟨x1, x2⟩, h1, h2⟩
          · simp at h2
          · simp only [Option.some.injEq, Except.ok.injEq, Prod.mk.injEq] at h2
            obtain ⟨hn, hs⟩ := h2
            subst hn
            subst hs
            have hext : ast k _ ⟨r ++ (t0 :: rtail), c⟩ =
                some (.ok (x1, ⟨x2.ts ++ (t0 :: rtail), c⟩)) := ihA _ ⟨r, b⟩ x1 x2 h1
            rw [hext]
            rfl
        case leftParenthesis =>
          rcases andThen_some h with ⟨e, h1, h2⟩ | ⟨⟨x1, x2⟩, h1, h2⟩
          · simp at h2
          · obtain ⟨ts2, b2⟩ := x2
            cases ts2 with
            | nil => cases b2 <;> simp [nextTok] at h2
            | cons t2 r2 =>
              cases t2
              case rightParenthesis =>
                simp only [nextTok, Option.some.injEq, Except.ok.injEq, Prod.mk.injEq] at h2
                obtain ⟨hn, hs⟩ := h2
                subst hn
                subst hs
                have hext : ast k .default ⟨r ++ (t0 :: rtail), c⟩ =
                    some (.ok (x1, ⟨.rightParenthesis :: (r2 ++ (t0 :: rtail)), c⟩)) :=
                  ihA .default ⟨r, b⟩ x1 ⟨.rightParenthesis :: r2, b2⟩ h1
                rw [hext]
                rfl
              all_goals simp [nextTok] at h2
        all_goals simp at h

theorem andThen_error {r : PRes} {f : Node × TState → PRes} {e : ParseError}
    (h : andThen r f = some (.error e)) :
    r = some (.error e) ∨ ∃ x, r = some (.ok x) ∧ f x = some (.error e) := by
  rcases andThen_some h with ⟨e2, h1, h2⟩ | ⟨x, h1, h2⟩
  · left
    cases h2
    exact h1
  · right
    exact ⟨x, h1, h2⟩

theorem lt_default_of_lt {p x : OperationPrecedence}
    (h : OperationPrecedence.lt p x = true) :
    OperationPrecedence.lt .default x = true := by
  cases p <;> cases x <;> revert h <;> decide

theorem parserNoInvalidOpAux (fuel : Nat) :
    (∀ s m, number fuel s ≠ some (.error (.invalidOperator m))) ∧
    (∀ p s m, ast fuel p s ≠ some (.error (.invalidOperator m))) ∧
    (∀ p left s m, astLoop fuel p left s ≠ some (.error (.invalidOperator m))) ∧
    (∀ left t r b m, OperationPrecedence.lt .default t.operation_precedence = true →
      operation fuel left ⟨t :: r, b⟩ ≠ some (.error (.invalidOperator m))) := by
  induction fuel with
  | zero =>
    refine ⟨?_, ?_, ?_, ?_⟩ <;> intros _ _ _ <;> intros <;>
      simp [number, ast, astLoop, operation] at *
  | succ fuel ih =>
    obtain ⟨ihN, ihA, ihL, ihO⟩ := ih
    refine ⟨?_, ?_, ?_, ?_⟩
    · -- number
      intro s m h
      obtain ⟨ts, b⟩ := s
      cases ts with
      | nil => cases b <;> simp [number, nextTok] at h
      | cons t r =>
        simp only [number, nextTok] at h
        cases t
        case plus => exact ihN ⟨r, b⟩ m h
        case minus =>
          rcases andThen_error h with h1 | ⟨x, h1, h2⟩
          · exact ihN ⟨r, b⟩ m h1
          · simp at h2
        case number q => simp at h
        case leftParenthesis =>
          rcases andThen_error h with h1 | ⟨⟨x1, x2⟩, h1, h2⟩
          · exact ihA .default ⟨r, b⟩ m h1
          · obtain ⟨ts2, b2⟩ := x2
            cases ts2 with
            | nil => cases b2 <;> simp [nextTok] at h2
            | cons t2 r2 => cases t2 <;> simp [nextTok] at h2
        all_goals simp at h
    · -- ast
      intro p s m h
      simp only [ast] at h
      rcases andThen_error h with h1 | ⟨⟨x1, x2⟩, h1, h2⟩
      · exact ihN s m h1
      · exact ihL p x1 x2 m h2
    · -- astLoop
      intro p left s m h
      obtain ⟨ts, b⟩ := s
      cases ts with
      | nil => cases b <;> simp [astLoop, peekTok, nextTok] at h
      | cons t r =>
        cases t
        case eof => simp [astLoop, peekTok, nextTok] at h
        all_goals (
          simp only [astLoop, peekTok, nextTok] at h
          split at h
          · rename_i hcond
            rcases andThen_error h with h1 | ⟨⟨x1, x2⟩, h1, h2⟩
            · exact ihO left _ r b m (lt_default_of_lt hcond) h1
            · exact ihL p x1 x2 m h2
          · simp at h)
    · -- operation
      intro left t r b m hprec h
      simp only [operation, nextTok] at h
      cases t
      case plus | minus | asterisk | slash | caret =>
        rcases andThen_error h with h1 | ⟨x, h1, h2⟩
        · exact ihA _ ⟨r, b⟩ m h1
        · simp at h2
      case leftParenthesis =>
        rcases andThen_error h with h1 | ⟨⟨x1, x2⟩, h1, h2⟩
        · exact ihA .default ⟨r, b⟩ m h1
        · obtain ⟨ts2, b2⟩ := x2
          cases ts2 with
          | nil => cases b2 <;> simp [nextTok] at h2
          | cons t2 r2 => cases t2 <;> simp [nextTok] at h2
      all_goals
        simp [Token.operation_precedence, lt_default_false] at hprec h ⊢

end Parser

theorem tokenizeChars_spec (cs : List Char) :
    tokenListF (cs.length + 1) cs = some (tokenizeChars cs) := by
  obtain ⟨r, hr⟩ := tokenListF_sufficient (cs.length + 1) cs (Nat.lt_succ_self _)
  unfold tokenizeChars
  rw [hr]
  rfl

theorem tokenListF_tokenizeChars {fuel : Nat} {cs : List Char} {r : TokenizeResult}
    (h : tokenListF fuel cs = some r) : tokenizeChars cs = r :=
  tokenListF_unique (tokenizeChars_spec cs) h

theorem tokenizeChars_cons_tok {c : Char} {cs : List Char} {t : Token}
    (hstep : tokenStep (c :: cs) = some (.tok t, cs)) :
    tokenizeChars (c :: cs) = prependToks [t] (tokenizeChars cs) := by
  have h1 := tokenizeChars_spec cs
  have h3 : tokenListF (cs.length + 1 + 1) (c :: cs) =
      some (prependToks [t] (tokenizeChars cs)) := by
    simp only [tokenListF]
    rw [hstep]
    change consTok t (tokenListF (cs.length + 1) cs) = _
    rw [h1]
    cases tokenizeChars cs with
    | panicked => rfl
    | tokens ts b => rfl
  exact tokenListF_tokenizeChars h3

theorem tokenizeChars_append {xs ys : List Char} {tsx : List Token}
    (hx : tokenizeChars xs = .tokens tsx true)
    (hsep : ∀ d ds, ys = d :: ds → isNumericContinuation d = false) :
    tokenizeChars (xs ++ ys) = prependToks tsx (tokenizeChars ys) := by
  have h1 : tokenListF (xs.length + 1) xs = some (.tokens tsx true) := by
    have h0 := tokenizeChars_spec xs
    rwa [hx] at h0
  have h2 := tokenizeChars_spec ys
  have h3 := tokenListF_concat _ xs ys tsx _ _ hsep h1 h2
  exact tokenListF_tokenizeChars h3

theorem charStream_append (a b : String) :
    charStream (a ++ b) = charStream a ++ charStream b := by
  unfold charStream
  rw [String.data_append, List.filter_append]

theorem wellFormed_spec {s : String} (h : wellFormed s = true) :
    ∃ ts n, tokenize s = .tokens ts true ∧
      Parser.ast (Parser.astFuel ts) .default ⟨ts, true⟩ = some (.ok (n, ⟨[], true⟩)) ∧
      Parser.parse s = some (.ok n) := by
  unfold wellFormed at h
  split at h
  · rename_i ts heq
    split at h
    · rename_i n heq2
      exact ⟨ts, n, heq, heq2, by simp only [Parser.parse, heq, heq2]⟩
    · simp at h
  · simp at h

theorem ast_wrap {ts : List Token} {n : Node}
    (h : Parser.ast (Parser.astFuel ts) .default ⟨ts, true⟩ = some (.ok (n, ⟨[], true⟩))) :
    Parser.ast (Parser.astFuel (Token.leftParenthesis :: (ts ++ [Token.rightParenthesis])))
      .default ⟨Token.leftParenthesis :: (ts ++ [Token.rightParenthesis]), true⟩ =
      some (.ok (n, ⟨[], true⟩)) := by
  have harith : Parser.astFuel (Token.leftParenthesis :: (ts ++ [Token.rightParenthesis])) =
      (4 * ts.length + 11) + 1 := by
    simp only [Parser.astFuel, List.length_cons, List.length_append, List.length_nil]
    omega
  rw [harith]
  simp only [Parser.ast]
  have hnum : Parser.number (4 * ts.length + 11)
      ⟨Token.leftParenthesis :: (ts ++ [Token.rightParenthesis]), true⟩ =
      some (.ok (n, ⟨[], true⟩)) := by
    have h2 : 4 * ts.length + 11 = (4 * ts.length + 10) + 1 := by omega
    rw [h2]
    simp only [Parser.number, Parser.nextTok]
    have hinner : Parser.ast (4 * ts.length + 10) .default ⟨ts ++ [Token.rightParenthesis], true⟩ =
        some (.ok (n, ⟨[Token.rightParenthesis], true⟩)) :=
      (Parser.parserExtAux (Parser.astFuel ts) (4 * ts.length + 10)
        (by simp only [Parser.astFuel]; omega) .rightParenthesis [] true rfl).2.1
        .default ⟨ts, true⟩ n ⟨[], true⟩ h
    rw [hinner]
    rfl
  rw [hnum]
  have h3 : 4 * ts.length + 11 = (4 * ts.length + 10) + 1 := by omega
  rw [h3]
  simp only [Parser.andThen, Parser.astLoop, Parser.peekTok, Parser.nextTok]

theorem sep_rparen : ∀ (d : Char) (ds : List Char),
    ([')'] : List Char) = d :: ds → isNumericContinuation d = false := by
  intro d ds hd
  cases hd
  rfl

theorem parse_wrap {E : String} {ts : List Token} {n : Node}
    (htok : tokenize E = .tokens ts true)
    (hast : Parser.ast (Parser.astFuel ts) .default ⟨ts, true⟩ = some (.ok (n, ⟨[], true⟩))) :
    Parser.parse ("(" ++ E ++ ")") = some (.ok n) := by
  have htokP : tokenize ("(" ++ E ++ ")") =
      .tokens (Token.leftParenthesis :: (ts ++ [Token.rightParenthesis])) true := by
    have hcs : charStream ("(" ++ E ++ ")") = '(' :: (charStream E ++ [')']) := by
      rw [charStream_append, charStream_append]
      rw [show charStream "(" = ['('] from rfl, show charStream ")" = [')'] from rfl]
      simp
    unfold tokenize
    rw [hcs]
    have h1 : tokenizeChars ('(' :: (charStream E ++ [')'])) =
        prependToks [Token.leftParenthesis] (tokenizeChars (charStream E ++ [')'])) :=
      tokenizeChars_cons_tok rfl
    rw [h1]
    have h2 : tokenizeChars (charStream E ++ [')']) = prependToks ts (tokenizeChars [')']) :=
      tokenizeChars_append htok sep_rparen
    rw [h2]
    rfl
  have hastP := ast_wrap hast
  simp only [Parser.parse, htokP, hastP]

/-- Claim C5: parenthesization is transparent — for every well-formed
expression `E` (tokenization meets no unrecognized character and the
parser consumes the whole token list), the input `(E)` parses to the
very same tree as `E`, hence evaluates to the same result. -/
theorem c5_paren_transparent : ∀ E : String, wellFormed E = true →
    Parser.parse ("(" ++ E ++ ")") = Parser.parse E ∧
    Parser.evaluate ("(" ++ E ++ ")") = Parser.evaluate E := by
  intro E h
  obtain ⟨ts, n, htok, hast, hparse⟩ := wellFormed_spec h
  have hw := parse_wrap htok hast
  refine ⟨by rw [hw, hparse], ?_⟩
  unfold Parser.evaluate
  rw [hw, hparse]

/-- Witness for C5 at the concrete well-formed input `1+2`. -/
theorem c5_paren_transparent_witness :
    wellFormed "1+2" = true ∧ Parser.parse ("(" ++ "1+2" ++ ")") = Parser.parse "1+2" :=
  ⟨by decide, (c5_paren_transparent "1+2" (by decide)).1⟩

theorem ast_unfold (fuel : Nat) (p : OperationPrecedence) (s : Parser.TState) :
    Parser.ast (fuel + 1) p s =
      Parser.andThen (Parser.number fuel s) (fun x => Parser.astLoop fuel p x.1 x.2) := rfl

theorem number_lparen (fuel : Nat) (r : List Token) (b : Bool) :
    Parser.number (fuel + 1) ⟨Token.leftParenthesis :: r, b⟩ =
      Parser.andThen (Parser.ast fuel .default ⟨r, b⟩) (fun x =>
        match Parser.nextTok x.2 with
        | (some .rightParenthesis, s3) => some (.ok (x.1, s3))
        | _ => some (.error .parenthesisNotBalanced)) := rfl

theorem operation_lparen (fuel : Nat) (left : Node) (r : List Token) (b : Bool) :
    Parser.operation (fuel + 1) left ⟨Token.leftParenthesis :: r, b⟩ =
      Parser.andThen (Parser.ast fuel .default ⟨r, b⟩) (fun x =>
        match Parser.nextTok x.2 with
        | (some .rightParenthesis, s3) => some (.ok (.multiply left x.1, s3))
        | _ => some (.error .parenthesisNotBalanced)) := rfl

theorem operation_asterisk (fuel : Nat) (left : Node) (r : List Token) (b : Bool) :
    Parser.operation (fuel + 1) left ⟨Token.asterisk :: r, b⟩ =
      Parser.andThen (Parser.ast fuel Token.asterisk.operation_precedence ⟨r, b⟩)
        (fun x => some (.ok (.multiply left x.1, x.2))) := rfl

theorem astLoop_enter {p : OperationPrecedence} {t : Token} (fuel : Nat) (left : Node)
    (r : List Token) (b : Bool)
    (hcond : OperationPrecedence.lt p t.operation_precedence = true) :
    Parser.astLoop (fuel + 1) p left ⟨t :: r, b⟩ =
      Parser.andThen (Parser.operation fuel left ⟨t :: r, b⟩)
        (fun x => Parser.astLoop fuel p x.1 x.2) := by
  cases t
  case eof =>
    simp only [Token.operation_precedence] at hcond
    rw [Parser.lt_default_false] at hcond
    cases hcond
  all_goals (
    simp only [Parser.astLoop, Parser.peekTok, Parser.nextTok]
    rw [if_pos hcond])

theorem andThen_ok_loop (n : Node) (s : Parser.TState) (fuel : Nat)
    (p : OperationPrecedence) :
    Parser.andThen (some (.ok (n, s))) (fun x => Parser.astLoop fuel p x.1 x.2) =
      Parser.astLoop fuel p n s := rfl

theorem ast_adjacent {tsA tsB : List Token} {nA nB : Node}
    (hA : Parser.ast (Parser.astFuel tsA) .default ⟨tsA, true⟩ = some (.ok (nA, ⟨[], true⟩)))
    (hB : Parser.ast (Parser.astFuel tsB) .default ⟨tsB, true⟩ = some (.ok (nB, ⟨[], true⟩))) :
    Parser.ast
      (Parser.astFuel (Token.leftParenthesis :: (tsA ++ (Token.rightParenthesis ::
        (Token.leftParenthesis :: (tsB ++ [Token.rightParenthesis])))))) .default
      ⟨Token.leftParenthesis :: (tsA ++ (Token.rightParenthesis ::
        (Token.leftParenthesis :: (tsB ++ [Token.rightParenthesis])))), true⟩ =
      some (.ok (.multiply nA nB, ⟨[], true⟩)) := by
  have harith : Parser.astFuel (Token.leftParenthesis :: (tsA ++ (Token.rightParenthesis ::
      (Token.leftParenthesis :: (tsB ++ [Token.rightParenthesis]))))) =
      (4 * tsA.length + 4 * tsB.length + 19) + 1 := by
    simp only [Parser.astFuel, List.length_cons, List.length_append, List.length_nil]
    omega
  rw [harith, ast_unfold]
  have hnum : Parser.number (4 * tsA.length + 4 * tsB.length + 19)
      ⟨Token.leftParenthesis :: (tsA ++ (Token.rightParenthesis ::
        (Token.leftParenthesis :: (tsB ++ [Token.rightParenthesis])))), true⟩ =
      some (.ok (nA, ⟨Token.leftParenthesis :: (tsB ++ [Token.rightParenthesis]), true⟩)) := by
    have e1 : 4 * tsA.length + 4 * tsB.length + 19 =
        (4 * tsA.length + 4 * tsB.length + 18) + 1 := by omega
    rw [e1, number_lparen]
    have hinner : Parser.ast (4 * tsA.length + 4 * tsB.length + 18) .default
        ⟨tsA ++ (Token.rightParenthesis ::
          (Token.leftParenthesis :: (tsB ++ [Token.rightParenthesis]))), true⟩ =
        some (.ok (nA, ⟨Token.rightParenthesis ::
          (Token.leftParenthesis :: (tsB ++ [Token.rightParenthesis])), true⟩)) :=
      (Parser.parserExtAux (Parser.astFuel tsA) (4 * tsA.length + 4 * tsB.length + 18)
        (by simp only [Parser.astFuel]; omega) .rightParenthesis
        (Token.leftParenthesis :: (tsB ++ [Token.rightParenthesis])) true rfl).2.1
        .default ⟨tsA, true⟩ nA ⟨[], true⟩ hA
    rw [hinner]
    rfl
  rw [hnum, andThen_ok_loop]
  have e2 : 4 * tsA.length + 4 * tsB.length + 19 =
      (4 * tsA.length + 4 * tsB.length + 18) + 1 := by omega
  rw [e2, @astLoop_enter OperationPrecedence.default Token.leftParenthesis
    (4 * tsA.length + 4 * tsB.length + 18) nA (tsB ++ [Token.rightParenthesis]) true rfl]
  have hop : Parser.operation (4 * tsA.length + 4 * tsB.length + 18) nA
      ⟨Token.leftParenthesis :: (tsB ++ [Token.rightParenthesis]), true⟩ =
      some (.ok (.multiply nA nB, ⟨[], true⟩)) := by
    have e3 : 4 * tsA.length + 4 * tsB.length + 18 =
        (4 * tsA.length + 4 * tsB.length + 17) + 1 := by omega
    rw [e3, operation_lparen]
    have hinner2 : Parser.ast (4 * tsA.length + 4 * tsB.length + 17) .default
        ⟨tsB ++ [Token.rightParenthesis], true⟩ =
        some (.ok (nB, ⟨[Token.rightParenthesis], true⟩)) :=
      (Parser.parserExtAux (Parser.astFuel tsB) (4 * tsA.length + 4 * tsB.length + 17)
        (by simp only [Parser.astFuel]; omega) .rightParenthesis [] true rfl).2.1
        .default ⟨tsB, true⟩ nB ⟨[], true⟩ hB
    rw [hinner2]
    rfl
  rw [hop, andThen_ok_loop]
  rfl

theorem ast_star {tsA tsB : List Token} {nA nB : Node}
    (hA : Parser.ast (Parser.astFuel tsA) .default ⟨tsA, true⟩ = some (.ok (nA, ⟨[], true⟩)))
    (hB : Parser.ast (Parser.astFuel tsB) .default ⟨tsB, true⟩ = some (.ok (nB, ⟨[], true⟩))) :
    Parser.ast
      (Parser.astFuel (Token.leftParenthesis :: (tsA ++ (Token.rightParenthesis ::
        (Token.asterisk :: (Token.leftParenthesis :: (tsB ++ [Token.rightParenthesis])))))))
      .default
      ⟨Token.leftParenthesis :: (tsA ++ (Token.rightParenthesis ::
        (Token.asterisk :: (Token.leftParenthesis :: (tsB ++ [Token.rightParenthesis]))))),
        true⟩ =
      some (.ok (.multiply nA nB, ⟨[], true⟩)) := by
  have harith : Parser.astFuel (Token.leftParenthesis :: (tsA ++ (Token.rightParenthesis ::
      (Token.asterisk :: (Token.leftParenthesis :: (tsB ++ [Token.rightParenthesis])))))) =
      (4 * tsA.length + 4 * tsB.length + 23) + 1 := by
    simp only [Parser.astFuel, List.length_cons, List.length_append, List.length_nil]
    omega
  rw [harith, ast_unfold]
  have hnum : Parser.number (4 * tsA.length + 4 * tsB.length + 23)
      ⟨Token.leftParenthesis :: (tsA ++ (Token.rightParenthesis ::
        (Token.asterisk :: (Token.leftParenthesis :: (tsB ++ [Token.rightParenthesis]))))),
        true⟩ =
      some (.ok (nA, ⟨Token.asterisk ::
        (Token.leftParenthesis :: (tsB ++ [Token.rightParenthesis])), true⟩)) := by
    have e1 : 4 * tsA.length + 4 * tsB.length + 23 =
        (4 * tsA.length + 4 * tsB.length + 22) + 1 := by omega
    rw [e1, number_lparen]
    have hinner : Parser.ast (4 * tsA.length + 4 * tsB.length + 22) .default
        ⟨tsA ++ (Token.rightParenthesis :: (Token.asterisk ::
          (Token.leftParenthesis :: (tsB ++ [Token.rightParenthesis])))), true⟩ =
        some (.ok (nA, ⟨Token.rightParenthesis :: (Token.asterisk ::
          (Token.leftParenthesis :: (tsB ++ [Token.rightParenthesis]))), true⟩)) :=
      (Parser.parserExtAux (Parser.astFuel tsA) (4 * tsA.length + 4 * tsB.length + 22)
        (by simp only [Parser.astFuel]; omega) .rightParenthesis
        (Token.asterisk :: (Token.leftParenthesis :: (tsB ++ [Token.rightParenthesis])))
        true rfl).2.1 .default ⟨tsA, true⟩ nA ⟨[], true⟩ hA
    rw [hinner]
    rfl
  rw [hnum, andThen_ok_loop]
  have e2 : 4 * tsA.length + 4 * tsB.length + 23 =
      (4 * tsA.length + 4 * tsB.length + 22) + 1 := by omega
  rw [e2, @astLoop_enter OperationPrecedence.default Token.asterisk
    (4 * tsA.length + 4 * tsB.length + 22) nA
    (Token.leftParenthesis :: (tsB ++ [Token.rightParenthesis])) true rfl]
  have hop : Parser.operation (4 * tsA.length + 4 * tsB.length + 22) nA
      ⟨Token.asterisk :: (Token.leftParenthesis :: (tsB ++ [Token.rightParenthesis])),
        true⟩ =
      some (.ok (.multiply nA nB, ⟨[], true⟩)) := by
    have e3 : 4 * tsA.length + 4 * tsB.length + 22 =
        (4 * tsA.length + 4 * tsB.length + 21) + 1 := by omega
    rw [e3, operation_asterisk]
    have hast2 : Parser.ast (4 * tsA.length + 4 * tsB.length + 21)
        Token.asterisk.operation_precedence
        ⟨Token.leftParenthesis :: (tsB ++ [Token.rightParenthesis]), true⟩ =
        some (.ok (nB, ⟨[], true⟩)) := by
      have e4 : 4 * tsA.length + 4 * tsB.length + 21 =
          (4 * tsA.length + 4 * tsB.length + 20) + 1 := by omega
      rw [e4, ast_unfold]
      have hnum2 : Parser.number (4 * tsA.length + 4 * tsB.length + 20)
          ⟨Token.leftParenthesis :: (tsB ++ [Token.rightParenthesis]), true⟩ =
          some (.ok (nB, ⟨[], true⟩)) := by
        have e5 : 4 * tsA.length + 4 * tsB.length + 20 =
            (4 * tsA.length + 4 * tsB.length + 19) + 1 := by omega
        rw [e5, number_lparen]
        have hinner2 : Parser.ast (4 * tsA.length + 4 * tsB.length + 19) .default
            ⟨tsB ++ [Token.rightParenthesis], true⟩ =
            some (.ok (nB, ⟨[Token.rightParenthesis], true⟩)) :=
          (Parser.parserExtAux (Parser.astFuel tsB) (4 * tsA.length + 4 * tsB.length + 19)
            (by simp only [Parser.astFuel]; omega) .rightParenthesis [] true rfl).2.1
            .default ⟨tsB, true⟩ nB ⟨[], true⟩ hB
        rw [hinner2]
        rfl
      rw [hnum2, andThen_ok_loop]
      rfl
    rw [hast2]
    rfl
  rw [hop, andThen_ok_loop]
  rfl

theorem tokenize_adjacent {A B : String} {tsA tsB : List Token}
    (hA : tokenize A = .tokens tsA true) (hB : tokenize B = .tokens tsB true) :
    tokenize ("(" ++ A ++ ")(" ++ B ++ ")") =
      .tokens (Token.leftParenthesis :: (tsA ++ (Token.rightParenthesis ::
        (Token.leftParenthesis :: (tsB ++ [Token.rightParenthesis]))))) true := by
  have hcs : charStream ("(" ++ A ++ ")(" ++ B ++ ")") =
      '(' :: (charStream A ++ (')' :: ('(' :: (charStream B ++ [')'])))) := by
    rw [charStream_append, charStream_append, charStream_append, charStream_append]
    rw [show charStream "(" = ['('] from rfl, show charStream ")(" = [')', '('] from rfl,
      show charStream ")" = [')'] from rfl]
    simp
  have hA2 : tokenizeChars (charStream A) = .tokens tsA true := hA
  have hB2 : tokenizeChars (charStream B) = .tokens tsB true := hB
  have s1 : tokenizeChars ('(' :: (charStream A ++ (')' :: ('(' :: (charStream B ++ [')']))))) =
      prependToks [Token.leftParenthesis]
        (tokenizeChars (charStream A ++ (')' :: ('(' :: (charStream B ++ [')']))))) :=
    tokenizeChars_cons_tok rfl
  have s2 : tokenizeChars (charStream A ++ (')' :: ('(' :: (charStream B ++ [')'])))) =
      prependToks tsA (tokenizeChars (')' :: ('(' :: (charStream B ++ [')'])))) :=
    tokenizeChars_append hA2 (by intro d ds hd; cases hd; rfl)
  have s3 : tokenizeChars (')' :: ('(' :: (charStream B ++ [')']))) =
      prependToks [Token.rightParenthesis] (tokenizeChars ('(' :: (charStream B ++ [')']))) :=
    tokenizeChars_cons_tok rfl
  have s4 : tokenizeChars ('(' :: (charStream B ++ [')'])) =
      prependToks [Token.leftParenthesis] (tokenizeChars (charStream B ++ [')'])) :=
    tokenizeChars_cons_tok rfl
  have s5 : tokenizeChars (charStream B ++ [')']) =
      prependToks tsB (tokenizeChars [')']) :=
    tokenizeChars_append hB2 (by intro d ds hd; cases hd; rfl)
  unfold tokenize
  rw [hcs, s1, s2, s3, s4, s5, show tokenizeChars [')'] = .tokens [Token.rightParenthesis] true
    from rfl]
  rfl

theorem tokenize_star {A B : String} {tsA tsB : List Token}
    (hA : tokenize A = .tokens tsA true) (hB : tokenize B = .tokens tsB true) :
    tokenize ("(" ++ A ++ ")*(" ++ B ++ ")") =
      .tokens (Token.leftParenthesis :: (tsA ++ (Token.rightParenthesis ::
        (Token.asterisk :: (Token.leftParenthesis ::
          (tsB ++ [Token.rightParenthesis])))))) true := by
  have hcs : charStream ("(" ++ A ++ ")*(" ++ B ++ ")") =
      '(' :: (charStream A ++ (')' :: ('*' :: ('(' :: (charStream B ++ [')']))))) := by
    rw [charStream_append, charStream_append, charStream_append, charStream_append]
    rw [show charStream "(" = ['('] from rfl, show charStream ")*(" = [')', '*', '('] from rfl,
      show charStream ")" = [')'] from rfl]
    simp
  have hA2 : tokenizeChars (charStream A) = .tokens tsA true := hA
  have hB2 : tokenizeChars (charStream B) = .tokens tsB true := hB
  have s1 : tokenizeChars
      ('(' :: (charStream A ++ (')' :: ('*' :: ('(' :: (charStream B ++ [')'])))))) =
      prependToks [Token.leftParenthesis]
        (tokenizeChars (charStream A ++ (')' :: ('*' :: ('(' :: (charStream B ++ [')'])))))) :=
    tokenizeChars_cons_tok rfl
  have s2 : tokenizeChars (charStream A ++ (')' :: ('*' :: ('(' :: (charStream B ++ [')']))))) =
      prependToks tsA (tokenizeChars (')' :: ('*' :: ('(' :: (charStream B ++ [')']))))) :=
    tokenizeChars_append hA2 (by intro d ds hd; cases hd; rfl)
  have s3 : tokenizeChars (')' :: ('*' :: ('(' :: (charStream B ++ [')'])))) =
      prependToks [Token.rightParenthesis]
        (tokenizeChars ('*' :: ('(' :: (charStream B ++ [')'])))) :=
    tokenizeChars_cons_tok rfl
  have s4 : tokenizeChars ('*' :: ('(' :: (charStream B ++ [')']))) =
      prependToks [Token.asterisk] (tokenizeChars ('(' :: (charStream B ++ [')']))) :=
    tokenizeChars_cons_tok rfl
  have s5 : tokenizeChars ('(' :: (charStream B ++ [')'])) =
      prependToks [Token.leftParenthesis] (tokenizeChars (charStream B ++ [')'])) :=
    tokenizeChars_cons_tok rfl
  have s6 : tokenizeChars (charStream B ++ [')']) =
      prependToks tsB (tokenizeChars [')']) :=
    tokenizeChars_append hB2 (by intro d ds hd; cases hd; rfl)
  unfold tokenize
  rw [hcs, s1, s2, s3, s4, s5, s6,
    show tokenizeChars [')'] = .tokens [Token.rightParenthesis] true from rfl]
  rfl

theorem parse_adjacent {A B : String} {tsA tsB : List Token} {nA nB : Node}
    (htokA : tokenize A = .tokens tsA true)
    (hastA : Parser.ast (Parser.astFuel tsA) .default ⟨tsA, true⟩ = some (.ok (nA, ⟨[], true⟩)))
    (htokB : tokenize B = .tokens tsB true)
    (hastB : Parser.ast (Parser.astFuel tsB) .default ⟨tsB, true⟩ =
      some (.ok (nB, ⟨[], true⟩))) :
    Parser.parse ("(" ++ A ++ ")(" ++ B ++ ")") = some (.ok (.multiply nA nB)) := by
  have htokP := tokenize_adjacent htokA htokB
  have hastP := ast_adjacent hastA hastB
  simp only [Parser.parse, htokP, hastP]

theorem parse_star {A B : String} {tsA tsB : List Token} {nA nB : Node}
    (htokA : tokenize A = .tokens tsA true)
    (hastA : Parser.ast (Parser.astFuel tsA) .default ⟨tsA, true⟩ = some (.ok (nA, ⟨[], true⟩)))
    (htokB : tokenize B = .tokens tsB true)
    (hastB : Parser.ast (Parser.astFuel tsB) .default ⟨tsB, true⟩ =
      some (.ok (nB, ⟨[], true⟩))) :
    Parser.parse ("(" ++ A ++ ")*(" ++ B ++ ")") = some (.ok (.multiply nA nB)) := by
  have htokP := tokenize_star htokA htokB
  have hastP := ast_star hastA hastB
  simp only [Parser.parse, htokP, hastP]

theorem tokenListF_count (fuel : Nat) :
    ∀ (cs : List Char) (ts : List Token) (b : Bool),
      tokenListF fuel cs = some (.tokens ts b) → ts.length ≤ cs.length := by
  induction fuel with
  | zero => intro cs ts b h; simp [tokenListF] at h
  | succ fuel ih =>
    intro cs ts b h
    cases cs with
    | nil =>
      simp only [tokenListF, Option.some.injEq] at h
      cases h
      exact Nat.zero_le _
    | cons c rest =>
      simp only [tokenListF] at h
      cases hts : tokenStep (c :: rest) with
      | none => rw [hts] at h; cases h
      | some pr =>
        obtain ⟨st, rr⟩ := pr
        cases st with
        | eos =>
          rw [hts] at h
          cases h
          exact Nat.zero_le _
        | tok t =>
          rw [hts] at h
          change consTok t (tokenListF fuel rr) = _ at h
          cases hrec : tokenListF fuel rr with
          | none => rw [hrec] at h; cases h
          | some inner =>
            rw [hrec] at h
            cases inner with
            | panicked => simp [consTok] at h
            | tokens ts2 b2 =>
              simp only [consTok, Option.some.injEq, TokenizeResult.tokens.injEq] at h
              have h1 := ih rr ts2 b2 hrec
              have h2 := tokenStep_cons_length hts
              have h3 : ts = t :: ts2 := h.1.symm
              subst h3
              simp only [List.length_cons]
              omega

/-- Claim C1 (code bug): the specified tokenizer contract says the token
sequence ends with exactly one `EndOfInput`, after which every read
yields "no more tokens" — and the repository's own tokenizer unit tests
assert `next()` returns `None` at the end of input.  The code instead
answers `Some(EOF)` on every read once the characters are exhausted: on
the input `1` the second, third, and every later read all return the
`EndOfInput` token, and the iterator never yields `None`. -/
theorem c1_tokenizer_eof_code_bug :
    readN 0 ['1'] = some (.tok (.number 1), []) ∧
    readN 1 ['1'] = some (.tok .eof, []) ∧
    readN 2 ['1'] = some (.tok .eof, []) ∧
    (∀ n : Nat, readN n [] = some (.tok .eof, [])) := by
  refine ⟨by decide, by decide, by decide, ?_⟩
  intro n
  induction n with
  | zero => rfl
  | succ n ih => simpa [readN, tokenStep] using ih

/-- Claim C2: the input `10+20+30` parses to the left-nested tree
`Sum(Sum(10,20),30)` and evaluates to `60`. -/
theorem c2_sum_left_nested :
    Parser.parse "10+20+30" =
      some (.ok (.sum (.sum (.element 10) (.element 20)) (.element 30))) ∧
    Parser.evaluate "10+20+30" = some (.ok (.num 60)) :=
  ⟨by decide, by decide⟩

/-- Claim C3: the input `3^2*2` parses to `Multiply(Power(3,2), 2)` —
exponentiation binds tighter than multiplication — and evaluates
to `18`. -/
theorem c3_power_precedence :
    Parser.parse "3^2*2" =
      some (.ok (.multiply (.power (.element 3) (.element 2)) (.element 2))) ∧
    Parser.evaluate "3^2*2" = some (.ok (.num 18)) :=
  ⟨by decide, by decide⟩

/-- Claim C4, counterexample: `(A)(B)` does not generally evaluate like
`A*B`.  For `A = 1+2` and `B = 3`, `(1+2)(3)` evaluates to `9` while
`1+2*3` evaluates to `7`. -/
theorem c4_counterexample :
    Parser.evaluate "(1+2)(3)" = some (.ok (.num 9)) ∧
    Parser.evaluate "1+2*3" = some (.ok (.num 7)) ∧
    Parser.evaluate "(1+2)(3)" ≠ Parser.evaluate "1+2*3" :=
  ⟨by decide, by decide, by decide⟩

/-- Claim C4, amended: for all well-formed expressions `A` and `B`, the
input `(A)(B)` parses to `Multiply(parse A, parse B)` — exactly the tree
of `(A)*(B)`, so the two inputs evaluate identically; in particular
`(10+20)(30+40)` parses to `Multiply(Sum(10,20), Sum(30,40))` and
evaluates to `2100`. -/
theorem c4_adjacent_multiplication :
    (∀ A B : String, wellFormed A = true → wellFormed B = true →
      ∃ nA nB, Parser.parse A = some (.ok nA) ∧ Parser.parse B = some (.ok nB) ∧
        Parser.parse ("(" ++ A ++ ")(" ++ B ++ ")") = some (.ok (.multiply nA nB)) ∧
        Parser.parse ("(" ++ A ++ ")*(" ++ B ++ ")") = some (.ok (.multiply nA nB)) ∧
        Parser.evaluate ("(" ++ A ++ ")(" ++ B ++ ")") =
          Parser.evaluate ("(" ++ A ++ ")*(" ++ B ++ ")")) ∧
    Parser.parse "(10+20)(30+40)" = some (.ok (.multiply
      (.sum (.element 10) (.element 20)) (.sum (.element 30) (.element 40)))) ∧
    Parser.evaluate "(10+20)(30+40)" = some (.ok (.num 2100)) := by
  refine ⟨?_, by decide, by decide⟩
  intro A B hwA hwB
  obtain ⟨tsA, nA, htokA, hastA, hpA⟩ := wellFormed_spec hwA
  obtain ⟨tsB, nB, htokB, hastB, hpB⟩ := wellFormed_spec hwB
  have h1 := parse_adjacent htokA hastA htokB hastB
  have h2 := parse_star htokA hastA htokB hastB
  refine ⟨nA, nB, hpA, hpB, h1, h2, ?_⟩
  unfold Parser.evaluate
  rw [h1, h2]

/-- Witness for the amended C4 at `A = 1+2`, `B = 3`. -/
theorem c4_adjacent_multiplication_witness :
    ∃ nA nB, Parser.parse ("(" ++ "1+2" ++ ")(" ++ "3" ++ ")") =
      some (.ok (.multiply nA nB)) := by
  obtain ⟨nA, nB, _, _, h, _⟩ :=
    c4_adjacent_multiplication.1 "1+2" "3" (by decide) (by decide)
  exact ⟨nA, nB, h⟩

/-- Claim C6: whenever a `LeftParenthesis` has been consumed (by the
primary parser or by the implicit-multiplication branch of the operator
parser), the enclosed expression has been parsed, and the next consumed
token is not `RightParenthesis`, the parser fails with
`ParenthesisNotBalanced`; in particular `(1+2` fails that way. -/
theorem c6_parenthesis_not_balanced :
    (∀ (fuel : Nat) (s s1 : Parser.TState) (n : Node) (s2 : Parser.TState)
      (o : Option Token) (s3 : Parser.TState),
      Parser.nextTok s = (some .leftParenthesis, s1) →
      Parser.ast fuel .default s1 = some (.ok (n, s2)) →
      Parser.nextTok s2 = (o, s3) →
      o ≠ some .rightParenthesis →
      Parser.number (fuel + 1) s = some (.error .parenthesisNotBalanced)) ∧
    (∀ (fuel : Nat) (left : Node) (s s1 : Parser.TState) (n : Node) (s2 : Parser.TState)
      (o : Option Token) (s3 : Parser.TState),
      Parser.nextTok s = (some .leftParenthesis, s1) →
      Parser.ast fuel .default s1 = some (.ok (n, s2)) →
      Parser.nextTok s2 = (o, s3) →
      o ≠ some .rightParenthesis →
      Parser.operation (fuel + 1) left s = some (.error .parenthesisNotBalanced)) ∧
    Parser.parse "(1+2" = some (.error .parenthesisNotBalanced) ∧
    Parser.evaluate "(1+2" = some (.error .parenthesisNotBalanced) := by
  refine ⟨?_, ?_, by decide, by decide⟩
  · intro fuel s s1 n s2 o s3 hnext hast hnext2 hne
    simp only [Parser.number, hnext, Parser.andThen, hast, hnext2]
    cases o with
    | none => rfl
    | some t =>
      cases t
      case rightParenthesis => exact absurd rfl hne
      all_goals rfl
  · intro fuel left s s1 n s2 o s3 hnext hast hnext2 hne
    simp only [Parser.operation, hnext, Parser.andThen, hast, hnext2]
    cases o with
    | none => rfl
    | some t =>
      cases t
      case rightParenthesis => exact absurd rfl hne
      all_goals rfl

/-- Witness for C6 at a concrete state: after consuming `(` and parsing
`1`, the next token is `EOF`, so `number` fails with
`ParenthesisNotBalanced`. -/
theorem c6_parenthesis_not_balanced_witness :
    Parser.number 5 ⟨[.leftParenthesis, .number 1], true⟩ =
      some (.error .parenthesisNotBalanced) :=
  c6_parenthesis_not_balanced.1 4 ⟨[.leftParenthesis, .number 1], true⟩
    ⟨[.number 1], true⟩ (.element 1) ⟨[], true⟩ (some .eof) ⟨[], true⟩
    rfl (by decide) rfl (by decide)

/-- Claim C7: division by zero is not an error — `1/0` evaluates to
positive infinity (`1/2` to one half), and the error taxonomy
(`ParseError`) contains no divide-by-zero variant at all. -/
theorem c7_division_by_zero_infinity :
    Parser.evaluate "1/0" = some (.ok .posInf) ∧
    Parser.evaluate "1/2" = some (.ok (.num (mkRat 1 2))) ∧
    (∀ e : ParseError, (∃ m, e = .unableToParse m) ∨ e = .parenthesisNotBalanced ∨
      (∃ m, e = .invalidOperator m) ∨ (∃ m, e = .invalidNumber m)) := by
  refine ⟨by decide, by decide, ?_⟩
  intro e
  cases e with
  | unableToParse m => exact Or.inl ⟨m, rfl⟩
  | parenthesisNotBalanced => exact Or.inr (Or.inl rfl)
  | invalidOperator m => exact Or.inr (Or.inr (Or.inl ⟨m, rfl⟩))
  | invalidNumber m => exact Or.inr (Or.inr (Or.inr ⟨m, rfl⟩))

/-- Claim C8: when the tokenizer has stopped early at an unrecognized
character (the stream is exhausted and unclean), any further pull or
peek by the parser fails with `UnableToParse` — in `number`,
`operation`, and the `ast` climbing loop — and in particular both `@`
and `1+@` evaluate to an `UnableToParse` error (no panic, no silent
success). -/
theorem c8_unrecognized_character_error :
    (∀ fuel : Nat, Parser.number (fuel + 1) ⟨[], false⟩ =
      some (.error (.unableToParse "Number parse error"))) ∧
    (∀ (fuel : Nat) (left : Node), Parser.operation (fuel + 1) left ⟨[], false⟩ =
      some (.error (.unableToParse "Operator parse error"))) ∧
    (∀ (fuel : Nat) (p : OperationPrecedence) (left : Node),
      Parser.astLoop (fuel + 1) p left ⟨[], false⟩ =
      some (.error (.unableToParse "Unknown char"))) ∧
    Parser.evaluate "@" = some (.error (.unableToParse "Number parse error")) ∧
    Parser.evaluate "1+@" = some (.error (.unableToParse "Number parse error")) :=
  ⟨fun _ => rfl, fun _ _ => rfl, fun _ _ _ => rfl, by decide, by decide⟩

/-- Claim C9, counterexample: on the input `1.2.3` the numeral chunk
fails `f64` parsing and the code panics on `unwrap` — `parse` and
`evaluate` do not return `Ok` or `Err` (modelled as `none`). -/
theorem c9_panic_counterexample :
    Parser.parse "1.2.3" = none ∧ Parser.evaluate "1.2.3" = none :=
  ⟨by decide, by decide⟩

/-- Claim C9, amended: for every input whose tokenization does not
panic, `parse` returns a result (`Ok` or `Err`) with fuel linear in the
token count, and the token count is bounded by the input length; the
mutually recursive `ast`/`number`/`operation` never diverge. -/
theorem c9_termination :
    ∀ (s : String) (ts : List Token) (b : Bool), tokenize s = .tokens ts b →
      (∃ r, Parser.parse s = some r) ∧ ts.length ≤ s.length := by
  intro s ts b htok
  constructor
  · obtain ⟨r0, hr0⟩ := (Parser.parserFuelAux (Parser.astFuel ts)).2.1 .default ⟨ts, b⟩
      (show 4 * ts.length + 4 ≤ Parser.astFuel ts from Nat.le_refl _)
    simp only [Parser.parse, htok, hr0]
    cases r0 with
    | error e => exact ⟨.error e, rfl⟩
    | ok x => exact ⟨.ok x.1, rfl⟩
  · have h1 : tokenListF ((charStream s).length + 1) (charStream s) =
        some (.tokens ts b) := by
      have h0 := tokenizeChars_spec (charStream s)
      have h2 : tokenizeChars (charStream s) = .tokens ts b := htok
      rwa [h2] at h0
    have h3 := tokenListF_count _ _ _ _ h1
    have h4 : (charStream s).length ≤ s.data.length :=
      List.length_filter_le _ _
    have h5 : s.length = s.data.length := rfl
    omega

/-- Witness for the amended C9 at the concrete input `1+2`. -/
theorem c9_termination_witness : ∃ r, Parser.parse "1+2" = some r := by
  obtain ⟨⟨r, hr⟩, _⟩ := c9_termination "1+2" [.number 1, .plus, .number 2] true (by decide)
  exact ⟨r, hr⟩

/-- Claim C10: no input ever makes `parse` (hence `evaluate`) return an
`InvalidOperator` error — the catch-all branch of `operation` is
unreachable from the climbing loop, which only invokes `operation` on
tokens of precedence strictly above `Default`. -/
theorem c10_invalid_operator_unreachable :
    ∀ s : String, notInvalidOperator (Parser.parse s) = true := by
  intro s
  unfold Parser.parse
  cases htok : tokenize s with
  | panicked => rfl
  | tokens ts b =>
    show notInvalidOperator
      (match Parser.ast (Parser.astFuel ts) .default ⟨ts, b⟩ with
        | none => none
        | some (.error e) => some (.error e)
        | some (.ok (n, _)) => some (.ok n)) = true
    cases hast : Parser.ast (Parser.astFuel ts) .default ⟨ts, b⟩ with
    | none => rfl
    | some r =>
      cases r with
      | ok x => rfl
      | error e =>
        cases e with
        | unableToParse m => rfl
        | parenthesisNotBalanced => rfl
        | invalidNumber m => rfl
        | invalidOperator m =>
          exact absurd hast ((Parser.parserNoInvalidOpAux (Parser.astFuel ts)).2.1
            .default ⟨ts, b⟩ m)

end MathParser
